import Mathlib

/-!
Verification of the Puerro virtual-DOM teaching library
(src/huerto/04/research/diffing/dist/script.bundle.js and the observable
utility).  The JavaScript functions vNode/h, changed, render, diff, mount
and the Observable / ObservableList helpers are embedded shallowly:
JS objects holding attributes become association lists, DOM nodes become
an inductive tree, DOM mutations become explicit state passing plus a log
of host operations, and code paths on which the browser would throw are
modelled with Option (none = an exception escaped).
-/

/-- A JavaScript attribute value as it can appear in a vNode attribute
object: a string, a number (modelled as an integer), null, undefined, or
a callback function (identified by a numeric id standing for its
reference identity). -/
inductive AttrValue where
  | str (s : String)
  | num (n : Int)
  | nullV
  | undefinedV
  | fn (id : Nat)
deriving DecidableEq, Repr

/-- A JS attribute object: an association list from attribute names to
values (JS objects have unique keys; the model does not enforce this). -/
abbrev AttrMap := List (String × AttrValue)

/-- JS property read `m[k]`: an absent key yields undefined. -/
def jsGetAttr (m : AttrMap) (k : String) : AttrValue :=
  (m.lookup k).getD AttrValue.undefinedV

/-- Object.keys of an attribute object. -/
def attrKeys (m : AttrMap) : List String :=
  m.map Prod.fst

/-- The normalisation used by `changed`: the JS expression
`(null == v ? '' : v).toString()` — null/undefined become the empty
string, other values are stringified.  A callback stringifies to a tag
built from its identity. -/
def normString : AttrValue → String
  | .nullV => ""
  | .undefinedV => ""
  | .str s => s
  | .num n => toString n
  | .fn id => "function#" ++ toString id

/-- `null == v` in JS: true exactly for null and undefined. -/
def isNullish : AttrValue → Bool
  | .nullV => true
  | .undefinedV => true
  | _ => false

/-- Is the value a callback? (the typeof check for functions). -/
def isCallback : AttrValue → Bool
  | .fn _ => true
  | _ => false

/-- A virtual-DOM node as produced by `vNode`/`h` or written literally: a
string leaf, a number leaf, or an element `{ tagName, attributes,
children }`.  `attributes` is an Option: `none` models an object whose
`attributes` property is absent/undefined (vNode itself always produces
`some`). -/
inductive VNode where
  | text (s : String)
  | num (n : Int)
  | elem (tagName : String) (attributes : Option AttrMap) (children : List VNode)
deriving Repr

/-- One variadic child argument of `vNode(tagName, attributes, ...nodes)`:
either a single node or an array of nodes (the one level of nesting that
`[].concat(...nodes)` collapses). -/
inductive ChildArg where
  | single (v : VNode)
  | list (vs : List VNode)
deriving Repr

/-- The JS `[].concat(...nodes)`: arrays among the arguments are spliced
in order, single values are kept. -/
def flattenArgs : List ChildArg → List VNode
  | [] => []
  | .single v :: rest => v :: flattenArgs rest
  | .list vs :: rest => vs ++ flattenArgs rest

/-- The sequence a single argument contributes to the children. -/
def ChildArg.toList : ChildArg → List VNode
  | .single v => [v]
  | .list vs => vs

/-- `vNode` (aliased `h` in the source): builds an element description.
A null/undefined attributes argument becomes the empty object, the
variadic children are flattened one level. -/
def vNode (tagName : String) (attributes : Option AttrMap) (nodes : List ChildArg) : VNode :=
  .elem tagName (some (attributes.getD [])) (flattenArgs nodes)

/-- JS `typeof` on a VNode value. -/
def typeOf : VNode → String
  | .text _ => "string"
  | .num _ => "number"
  | .elem _ _ _ => "object"

/-- Reading the property `node.type`, which `changed` compares: `vNode`
only ever sets `tagName`, `attributes` and `children`, so `.type` is
undefined on every description (leaves have no properties at all). -/
def jsTypeField : VNode → Option String := fun _ => none

/-- JS strict inequality `node1 !== node2` as used under the guard
`typeof node1` being string or number: leaves of the
same kind compare by value; values of different runtime type are never
strictly equal.  Two elements would compare by reference, but the guard
makes that case unreachable, so `true` there is never observed. -/
def jsStrictNeqLeaf : VNode → VNode → Bool
  | .text s1, .text s2 => decide (s1 ≠ s2)
  | .num n1, .num n2 => decide (n1 ≠ n2)
  | _, _ => true

/-- The `attributes` property of a node: undefined (`none`) on leaves. -/
def attrsNode : VNode → Option AttrMap
  | .elem _ a _ => a
  | _ => none

/-- The `children` property of a node, for element nodes ( `[]` stands in
for the undefined property of a leaf, which `diff` never reads). -/
def childrenOf : VNode → List VNode
  | .elem _ _ cs => cs
  | _ => []

/-- The `nodeChanged` disjunction inside `changed`: typeof mismatch, or
leaf value mismatch, or differing `.type` properties (the last is
identically false, since `.type` is never set). -/
def nodeChanged (n1 n2 : VNode) : Bool :=
  decide (typeOf n1 ≠ typeOf n2) ||
  ((typeOf n1 == "string" || typeOf n1 == "number") && jsStrictNeqLeaf n1 n2) ||
  decide (jsTypeField n1 ≠ jsTypeField n2)

/-- The `attributesChanged` conjunction inside `changed`: both nodes must
have truthy `attributes` objects, and then either the key counts differ
or some key of the first object has a value that is strictly different
and also different after normalisation to strings. -/
def attributesChanged (n1 n2 : VNode) : Bool :=
  match attrsNode n1, attrsNode n2 with
  | some a1, some a2 =>
      decide ((attrKeys a1).length ≠ (attrKeys a2).length) ||
      (attrKeys a1).any (fun k =>
        decide (jsGetAttr a1 k ≠ jsGetAttr a2 k) &&
        decide (normString (jsGetAttr a1 k) ≠ normString (jsGetAttr a2 k)))
  | _, _ => false

/-- The change detector of the reconciler. -/
def changed (n1 n2 : VNode) : Bool :=
  nodeChanged n1 n2 || attributesChanged n1 n2

/-- The divergence condition as the specification words it: the count of
attribute keys differs, or the value at some key differs under the normalised
string comparison. -/
def specAttrsDiverge (a1 a2 : AttrMap) : Prop :=
  (attrKeys a1).length ≠ (attrKeys a2).length ∨
  ∃ k ∈ attrKeys a1, normString (jsGetAttr a1 k) ≠ normString (jsGetAttr a2 k)

/-- A live DOM node: a text node or an element with its rendered
attributes (already coerced to strings by setAttribute), its registered
event listeners, and its ordered child nodes. -/
inductive DNode where
  | dtext (s : String)
  | delem (tagName : String) (attrs : List (String × String))
      (listeners : List (String × Nat)) (children : List DNode)
deriving Repr

/-- `$node.childNodes` (a text node has none). -/
def childNodesD : DNode → List DNode
  | .dtext _ => []
  | .delem _ _ _ cs => cs

/-- `$parent.appendChild(d)`; appending to a text node throws. -/
def appendChildD : DNode → DNode → Option DNode
  | .dtext _, _ => none
  | .delem t a l cs, d => some (.delem t a l (cs ++ [d]))

/-- `$parent.removeChild($parent.childNodes[i])`; an out-of-range index
makes `childNodes[i]` undefined and removeChild throw. -/
def removeChildAtD : DNode → Nat → Option DNode
  | .dtext _, _ => none
  | .delem t a l cs, i =>
      if i < cs.length then some (.delem t a l (cs.eraseIdx i)) else none

/-- `$parent.replaceChild(d, $parent.childNodes[i])`; an out-of-range
index makes replaceChild throw. -/
def replaceChildAtD : DNode → Nat → DNode → Option DNode
  | .dtext _, _, _ => none
  | .delem t a l cs, i, d =>
      if i < cs.length then some (.delem t a l (cs.set i d)) else none

/-- Writing an updated child back at its position, modelling in-place DOM
mutation of the child fetched from `childNodes[i]`: when no child was
fetched (`none`) the parent is untouched. -/
def setChildOpt (p : DNode) (i : Nat) : Option DNode → DNode
  | none => p
  | some c =>
      match p with
      | .dtext s => .dtext s
      | .delem t a l cs => .delem t a l (cs.set i c)

/-- The live child of `p` at index `i` (an empty text node stands in for
an absent child when measuring). -/
def childAtD (p : DNode) (i : Nat) : DNode :=
  ((childNodesD p).get? i).getD (.dtext "")

/-- The attributes `createElement` sets on a fresh element: nullish
values are filtered out, callbacks become listeners instead, the rest is
coerced to strings by setAttribute.  A missing attributes object (never
produced by vNode) behaves like the default empty object of createElement. -/
def hostAttrs (a : Option AttrMap) : List (String × String) :=
  ((a.getD []).filter (fun kv => !isNullish kv.2)).filterMap
    (fun kv => if isCallback kv.2 then none else some (kv.1, normString kv.2))

/-- The event listeners `createElement` registers: callback-valued keys
surviving the nullish filter. -/
def hostListeners (a : Option AttrMap) : List (String × Nat) :=
  ((a.getD []).filter (fun kv => !isNullish kv.2)).filterMap
    (fun kv => match kv.2 with | .fn id => some (kv.1, id) | _ => none)

mutual

/-- The materializer `render` on a non-null description: leaves become
text nodes, an element becomes a fresh element with its attributes,
listeners and recursively rendered children. -/
def renderV : VNode → DNode
  | .text s => .dtext s
  | .num n => .dtext (toString n)
  | .elem t a cs => .delem t (hostAttrs a) (hostListeners a) (renderList cs)

/-- Rendering of a children array (`node.children.forEach(c => ...)`). -/
def renderList : List VNode → List DNode
  | [] => []
  | v :: vs => renderV v :: renderList vs

end

/-- The full `render`: a null/undefined description becomes an empty
text node. -/
def render : Option VNode → DNode
  | none => .dtext ""
  | some v => renderV v

/-- One host-tree mutation command issued by `diff`. -/
inductive HostOp where
  | append
  | remove
  | replace
deriving DecidableEq, Repr

mutual

/-- The body of `diff` once both descriptions are non-null: replace the
live child at `index` when `changed` holds, otherwise recurse over the
children of the NEW description when it is an element with a truthy tag name
(`if (newNode.tagName)`), and do nothing for leaves.  The parent is an
Option because recursive calls pass `$parent.childNodes[index]`, which
may be undefined; a host operation on an undefined parent throws
(`none`).  Returns the updated parent and the log of host mutations. -/
def diffVCore (parent : Option DNode) (o n : VNode) (index : Nat) :
    Option (Option DNode × List HostOp) :=
  if changed o n then
    match parent with
    | some p =>
        match replaceChildAtD p index (renderV n) with
        | some p' => some (some p', [HostOp.replace])
        | none => none
    | none => none
  else
    match n with
    | .elem t _ cs =>
        if t = "" then some (parent, [])
        else
          match parent with
          | none => if cs.isEmpty then some (none, []) else none
          | some p =>
              match diffChildren ((childNodesD p).get? index) (childrenOf o) cs 0 with
              | some (ch, ops) => some (some (setChildOpt p index ch), ops)
              | none => none
    | _ => some (parent, [])

/-- The `newNode.children.forEach((newNode, i) => diff(...))` loop: the
state is the live child the loop mutates; the child of the old description at
each position is looked up by index and may be absent (growth case
appends).  Positions past the length of the new children are never visited. -/
def diffChildren (child : Option DNode) (oldCs : List VNode) (newCs : List VNode)
    (i : Nat) : Option (Option DNode × List HostOp) :=
  match newCs with
  | [] => some (child, [])
  | n :: rest =>
      match oldCs.get? i with
      | none =>
          match child with
          | none => none
          | some c =>
              match appendChildD c (renderV n) with
              | none => none
              | some c' =>
                  match diffChildren (some c') oldCs rest (i + 1) with
                  | none => none
                  | some (c₂, ops₂) => some (c₂, HostOp.append :: ops₂)
      | some o =>
          match diffVCore child o n i with
          | none => none
          | some (c₁, ops₁) =>
              match diffChildren c₁ oldCs rest (i + 1) with
              | none => none
              | some (c₂, ops₂) => some (c₂, ops₁ ++ ops₂)

end

/-- The reconciler `diff($parent, oldNode, newNode, index)`: a null old
description appends a fresh materialization of the new one (case 1), a
null new description removes the live child at `index` (case 2), and
otherwise `diffVCore` applies the replace-or-recurse policy. -/
def diff (parent : Option DNode) (oldN newN : Option VNode) (index : Nat) :
    Option (Option DNode × List HostOp) :=
  match oldN with
  | none =>
      match parent with
      | some p =>
          match appendChildD p (render newN) with
          | some p' => some (some p', [HostOp.append])
          | none => none
      | none => none
  | some o =>
      match newN with
      | none =>
          match parent with
          | some p =>
              match removeChildAtD p index with
              | some p' => some (some p', [HostOp.remove])
              | none => none
          | none => none
      | some n => diffVCore parent o n index

mutual

/-- Structural induction for VNode, threading the hypothesis through the
nested children lists. -/
def vnodeInd (P : VNode → Prop) (ht : ∀ s, P (.text s)) (hn : ∀ k, P (.num k))
    (he : ∀ t a cs, (∀ c ∈ cs, P c) → P (.elem t a cs)) : ∀ v, P v
  | .text s => ht s
  | .num k => hn k
  | .elem t a cs => he t a cs (vnodeIndList P ht hn he cs)

/-- Induction helper for children lists. -/
def vnodeIndList (P : VNode → Prop) (ht : ∀ s, P (.text s)) (hn : ∀ k, P (.num k))
    (he : ∀ t a cs, (∀ c ∈ cs, P c) → P (.elem t a cs)) :
    ∀ cs : List VNode, ∀ c ∈ cs, P c
  | v :: vs => fun c hc =>
      Or.elim (List.mem_cons.mp hc)
        (fun h => by rw [h]; exact vnodeInd P ht hn he v)
        (fun h => vnodeIndList P ht hn he vs c h)
  | [] => fun c hc => absurd hc (List.not_mem_nil c)

end

/-- Number of live children of a possibly-absent node. -/
def lenOpt : Option DNode → Nat
  | none => 0
  | some d => (childNodesD d).length

/-- First-some choice, modelling which lookup wins after a JS spread. -/
def optOr {α : Type} : Option α → Option α → Option α
  | some v, _ => some v
  | none, b => b

/-- Inserting one key/value into a JS object: an existing key is
overwritten in place, a new key is appended. -/
def objInsert {V : Type} (m : List (String × V)) (k : String) (v : V) :
    List (String × V) :=
  if m.any (fun kv => kv.1 == k) then
    m.map (fun kv => if kv.1 == k then (k, v) else kv)
  else m ++ [(k, v)]

/-- The object-spread `{...a, ...b}` used by setState: a fresh object
receives the entries of a then those of b, later keys overwriting. -/
def jsSpread {V : Type} (a b : List (String × V)) : List (String × V) :=
  (a ++ b).foldl (fun acc kv => objInsert acc kv.1 kv.2) []

/-- The value the LAST entry with key `k` carries, the one a JS object
built from these entries would hold. -/
def lastLookup {V : Type} : List (String × V) → String → Option V
  | [], _ => none
  | kv :: rest, k =>
      match lastLookup rest k with
      | some v => some v
      | none => if k = kv.1 then some kv.2 else none

/-- The private per-mount state of the render loop: the current
application state object, the retained previous description (`vDom`),
and the live root. -/
structure MountRec (V : Type) where
  state : List (String × V)
  vDom : VNode
  root : DNode

/-- `setState(newState)`: shallow-merge into the state, re-invoke the
view on the updated state, patch (or fully replace the first child when
diffing is disabled), and retain the new description.  `none` models a
host exception escaping. -/
def setState {V : Type} (useDiffing : Bool) (view : List (String × V) → VNode)
    (m : MountRec V) (p : List (String × V)) : Option (MountRec V) :=
  let st' := jsSpread m.state p
  let newVDom := view st'
  if useDiffing then
    match diff (some m.root) (some m.vDom) (some newVDom) 0 with
    | some (some r', _) => some ⟨st', newVDom, r'⟩
    | _ => none
  else
    match replaceChildAtD m.root 0 (renderV newVDom) with
    | some r' => some ⟨st', newVDom, r'⟩
    | none => none

/-- The initial `mount` call: render the first description and append it
(or replace the existing first child of the root). -/
def mount {V : Type} (root : DNode) (view : List (String × V) → VNode)
    (initialState : List (String × V)) : Option (MountRec V) :=
  let vDom := view initialState
  match childNodesD root with
  | [] => (appendChildD root (renderV vDom)).map (fun r => ⟨initialState, vDom, r⟩)
  | _ :: _ => (replaceChildAtD root 0 (renderV vDom)).map (fun r => ⟨initialState, vDom, r⟩)

/-- The state of an `Observable(value)`: the held value and the
registered onChange listeners (by identity, in registration order). -/
structure ObsState (V : Type) where
  value : V
  listeners : List Nat

/-- `getValue()`. -/
def getValue {V : Type} (s : ObsState V) : V := s.value

/-- `setValue(newValue)`: a strictly-equal value is a no-op; otherwise
every listener is notified with `(newValue, oldValue)` and the value is
updated.  Returns the new state and the notification log. -/
def setValue {V : Type} [DecidableEq V] (s : ObsState V) (v : V) :
    ObsState V × List (Nat × V × V) :=
  if s.value = v then (s, [])
  else (⟨v, s.listeners⟩, s.listeners.map (fun l => (l, v, s.value)))

/-- The state of an `ObservableList(list)`. -/
structure ObsListState (V : Type) where
  items : List V
  addListeners : List Nat
  delListeners : List Nat

/-- `Array.prototype.indexOf`: first index holding a strictly equal
element, `-1` when absent. -/
def jsIndexOfAux {V : Type} [DecidableEq V] (x : V) : List V → Int → Int
  | [], _ => -1
  | y :: ys, i => if y = x then i else jsIndexOfAux x ys (i + 1)

/-- `list.indexOf(item)`. -/
def jsIndexOf {V : Type} [DecidableEq V] (l : List V) (x : V) : Int :=
  jsIndexOfAux x l 0

/-- `count()` of an ObservableList. -/
def count {V : Type} (s : ObsListState V) : Nat := s.items.length

/-- `add(item)`: push and notify the add listeners. -/
def add {V : Type} (s : ObsListState V) (item : V) :
    ObsListState V × List (Nat × V) :=
  (⟨s.items ++ [item], s.addListeners, s.delListeners⟩,
    s.addListeners.map (fun l => (l, item)))

/-- `del(item)`: splice the item out when `indexOf` finds it, then
notify EVERY del listener regardless of whether a removal happened. -/
def del {V : Type} [DecidableEq V] (s : ObsListState V) (item : V) :
    ObsListState V × List (Nat × V) :=
  let i := jsIndexOf s.items item
  let items' := if 0 ≤ i then s.items.eraseIdx i.toNat else s.items
  (⟨items', s.addListeners, s.delListeners⟩,
    s.delListeners.map (fun l => (l, item)))

lemma strictNeq_and_normNeq (x y : AttrValue) :
    (decide (x ≠ y) && decide (normString x ≠ normString y)) =
      decide (normString x ≠ normString y) := by
  by_cases hxy : x = y
  · subst hxy; simp
  · simp [hxy]

lemma changed_elem_eq_attributesChanged (t1 t2 : String) (a1 a2 : Option AttrMap)
    (c1 c2 : List VNode) :
    changed (.elem t1 a1 c1) (.elem t2 a2 c2) =
      attributesChanged (.elem t1 a1 c1) (.elem t2 a2 c2) := by
  simp [changed, nodeChanged, typeOf, jsTypeField]

lemma changed_self (n : VNode) : changed n n = false := by
  cases n with
  | text s => simp [changed, nodeChanged, attributesChanged, typeOf, jsTypeField,
      jsStrictNeqLeaf, attrsNode]
  | num k => simp [changed, nodeChanged, attributesChanged, typeOf, jsTypeField,
      jsStrictNeqLeaf, attrsNode]
  | elem t a cs =>
      cases a with
      | none => simp [changed, nodeChanged, attributesChanged, typeOf, jsTypeField,
          jsStrictNeqLeaf, attrsNode]
      | some m =>
          simp [changed, nodeChanged, attributesChanged, typeOf, jsTypeField,
            jsStrictNeqLeaf, attrsNode]

/-- C2: for elements with non-null attribute objects, `changed` reports
divergence exactly when the key counts differ or the value at some key
differs under normalised string comparison; in particular a numeric 1
against the string "1" is not a change, while 1 against 2 is. -/
theorem changed_attr_characterization :
    (∀ (t1 t2 : String) (a1 a2 : AttrMap) (c1 c2 : List VNode),
      changed (.elem t1 (some a1) c1) (.elem t2 (some a2) c2) = true ↔
        specAttrsDiverge a1 a2) ∧
    changed (.elem "p" (some [("test", .num 1)]) [])
        (.elem "p" (some [("test", .str "1")]) []) = false ∧
    changed (.elem "p" (some [("test", .num 1)]) [])
        (.elem "p" (some [("test", .num 2)]) []) = true := by
  refine ⟨fun t1 t2 a1 a2 c1 c2 => ?_, by decide, by decide⟩
  rw [changed_elem_eq_attributesChanged]
  simp only [attributesChanged, attrsNode, Bool.or_eq_true, List.any_eq_true,
    decide_eq_true_eq, Bool.and_eq_true, specAttrsDiverge]
  apply or_congr Iff.rfl
  apply exists_congr
  intro k
  constructor
  · rintro ⟨hk, _, hn⟩
    exact ⟨hk, hn⟩
  · rintro ⟨hk, hn⟩
    exact ⟨hk, fun he => hn (by rw [he]), hn⟩

/-- C4: the detector never inspects children — substituting arbitrary
children sequences on both sides leaves `changed` equal to its value on
the same elements with empty children. -/
theorem changed_ignores_children (t1 t2 : String) (a1 a2 : Option AttrMap)
    (c1 c2 : List VNode) :
    changed (.elem t1 a1 c1) (.elem t2 a2 c2) =
      changed (.elem t1 a1 []) (.elem t2 a2 []) := rfl

/-- C8: `changed` compares the (never set) `.type` property instead of
`tagName`, so two elements whose attribute objects the detector finds
equal are reported unchanged even when their tag names differ. -/
theorem changed_ignores_tagName (t1 t2 : String) (a1 a2 : Option AttrMap)
    (c1 c2 : List VNode) (_htag : t1 ≠ t2)
    (hattrs : attributesChanged (.elem t1 a1 c1) (.elem t2 a2 c2) = false) :
    changed (.elem t1 a1 c1) (.elem t2 a2 c2) = false := by
  rw [changed_elem_eq_attributesChanged]
  exact hattrs

/-- Witness for C8 at concrete distinct tag names. -/
theorem changed_ignores_tagName_witness :
    ("div" ≠ "span") ∧
    attributesChanged (.elem "div" (some [("id", .str "x")]) [])
        (.elem "span" (some [("id", .str "x")]) []) = false ∧
    changed (.elem "div" (some [("id", .str "x")]) [])
        (.elem "span" (some [("id", .str "x")]) []) = false :=
  ⟨by decide, by decide,
    changed_ignores_tagName "div" "span" _ _ _ _ (by decide) (by decide)⟩

lemma renderList_eq_map (cs : List VNode) : renderList cs = cs.map renderV := by
  induction cs with
  | nil => rfl
  | cons v vs ih => simp [renderList, ih]

/-- The inner loop step is exactly a recursive `diff` call on the live
child with the positionally matched descriptions. -/
lemma diffChildren_cons (child : Option DNode) (oldCs : List VNode) (n : VNode)
    (rest : List VNode) (i : Nat) :
    diffChildren child oldCs (n :: rest) i =
      match diff child (oldCs.get? i) (some n) i with
      | none => none
      | some (c₁, ops₁) =>
          match diffChildren c₁ oldCs rest (i + 1) with
          | none => none
          | some (c₂, ops₂) => some (c₂, ops₁ ++ ops₂) := by
  cases hoc : oldCs.get? i with
  | none =>
      simp only [List.get?_eq_getElem?] at hoc
      cases child with
      | none => simp [diffChildren, diff, hoc]
      | some c =>
          cases hac : appendChildD c (renderV (n)) with
          | none => simp [diffChildren, diff, hoc, render, hac]
          | some c' =>
              simp only [diffChildren, diff, List.get?_eq_getElem?, hoc, render, hac]
              cases diffChildren (some c') oldCs rest (i + 1) with
              | none => rfl
              | some r => rfl
  | some o =>
      simp only [List.get?_eq_getElem?] at hoc
      simp [diffChildren, diff, hoc]

/-- C6: `render` is total — null/undefined descriptions give an empty
text node, string and number leaves give text nodes carrying the value,
and an element description gives a fresh element subtree built
recursively. -/
theorem render_total_characterization :
    render none = DNode.dtext "" ∧
    (∀ s, render (some (.text s)) = .dtext s) ∧
    (∀ n, render (some (.num n)) = .dtext (toString n)) ∧
    (∀ t a cs, render (some (.elem t a cs)) =
      .delem t (hostAttrs a) (hostListeners a) (cs.map renderV)) := by
  refine ⟨rfl, fun s => rfl, fun n => rfl, fun t a cs => ?_⟩
  simp [render, renderV, renderList_eq_map]

lemma flattenArgs_eq_join (args : List ChildArg) :
    flattenArgs args = (args.map ChildArg.toList).join := by
  induction args with
  | nil => rfl
  | cons a rest ih => cases a <;> simp [flattenArgs, ChildArg.toList, ih]

/-- C7: the children of a node built by `vNode`/`h` are the one-level
flattening (ordered concatenation) of the variadic child arguments, and
the attributes field is never null — a null/undefined argument becomes
the empty map. -/
theorem vNode_flattens_and_defaults (t : String) (attrs : Option AttrMap)
    (args : List ChildArg) :
    childrenOf (vNode t attrs args) = (args.map ChildArg.toList).join ∧
    attrsNode (vNode t attrs args) = some (attrs.getD []) ∧
    attrsNode (vNode t attrs args) ≠ none := by
  refine ⟨?_, rfl, by simp [vNode, attrsNode]⟩
  simp [vNode, childrenOf, flattenArgs_eq_join]

lemma get?_of_drop_cons {α : Type} :
    ∀ (l : List α) (i : Nat) (x : α) (rest : List α),
      l.drop i = x :: rest → l.get? i = some x ∧ l.drop (i + 1) = rest := by
  intro l
  induction l with
  | nil => intro i x rest h; simp at h
  | cons y ys ih =>
      intro i x rest h
      cases i with
      | zero =>
          simp only [List.drop_zero] at h
          cases h
          exact ⟨rfl, by simp⟩
      | succ j =>
          simp only [List.drop_succ_cons] at h
          have := ih j x rest h
          exact ⟨this.1, by simpa [List.drop_succ_cons] using this.2⟩

lemma mem_of_get?_eq_some {α : Type} :
    ∀ (l : List α) (i : Nat) (x : α), l.get? i = some x → x ∈ l := by
  intro l
  induction l with
  | nil => intro i x h; simp [List.get?] at h
  | cons y ys ih =>
      intro i x h
      cases i with
      | zero => simp [List.get?] at h; simp [h]
      | succ j => simp only [List.get?] at h; exact List.mem_cons_of_mem y (ih j x h)

lemma set_of_get?_eq {α : Type} :
    ∀ (l : List α) (i : Nat) (x : α), l.get? i = some x → l.set i x = l := by
  intro l
  induction l with
  | nil => intro i x h; simp [List.get?] at h
  | cons y ys ih =>
      intro i x h
      cases i with
      | zero => simp [List.get?] at h; simp [h]
      | succ j => simp only [List.get?] at h; simp [List.set, ih j x h]

lemma diffChildren_self_aux (P : VNode → Prop)
    (hP : ∀ c, P c → ∀ root idx, (childNodesD root).get? idx = some (renderV c) →
      diff (some root) (some c) (some c) idx = some (some root, [])) :
    ∀ (rest full : List VNode) (i : Nat) (c : DNode),
      (∀ x ∈ full, P x) → full.drop i = rest →
      childNodesD c = full.map renderV →
      diffChildren (some c) full rest i = some (some c, []) := by
  intro rest
  induction rest with
  | nil => intro full i c _ _ _; rfl
  | cons n rest' ih =>
      intro full i c hfull hdrop hc
      obtain ⟨hget, hdrop'⟩ := get?_of_drop_cons full i n rest' hdrop
      have hmem : n ∈ full := mem_of_get?_eq_some full i n hget
      have hchild : (childNodesD c).get? i = some (renderV n) := by
        rw [hc, List.get?_map, hget]
        rfl
      have hstep : diff (some c) (some n) (some n) i = some (some c, []) :=
        hP n (hfull n hmem) c i hchild
      have hrec : diffChildren (some c) full rest' (i + 1) = some (some c, []) :=
        ih full (i + 1) c hfull hdrop' hc
      rw [diffChildren_cons, hget, hstep]
      simp [hrec]

/-- C3: patching a live tree with the very description it was rendered
from performs no host mutation at any depth and leaves the tree
unchanged. -/
theorem patch_idempotent :
    ∀ (d : VNode) (root : DNode) (idx : Nat),
      (childNodesD root).get? idx = some (renderV d) →
      diff (some root) (some d) (some d) idx = some (some root, []) := by
  refine vnodeInd
    (fun d => ∀ root idx, (childNodesD root).get? idx = some (renderV d) →
      diff (some root) (some d) (some d) idx = some (some root, []))
    ?_ ?_ ?_
  · intro s root idx _
    simp [diff, diffVCore, changed_self]
  · intro k root idx _
    simp [diff, diffVCore, changed_self]
  · intro t a cs IH root idx h
    by_cases ht : t = ""
    · subst ht
      simp [diff, diffVCore, changed_self]
    · have hloop : diffChildren (some (renderV (.elem t a cs))) cs cs 0 =
          some (some (renderV (.elem t a cs)), []) := by
        apply diffChildren_self_aux
          (fun d => ∀ root idx, (childNodesD root).get? idx = some (renderV d) →
            diff (some root) (some d) (some d) idx = some (some root, []))
          (fun c hc => hc) cs cs 0 (renderV (.elem t a cs)) IH (by simp)
        simp [renderV, childNodesD, renderList_eq_map]
      have hset : setChildOpt root idx (some (renderV (.elem t a cs))) = root := by
        cases root with
        | dtext s => simp [childNodesD, List.get?] at h
        | delem rt ra rl rcs =>
            simp only [childNodesD] at h
            simp [setChildOpt, set_of_get?_eq rcs idx _ h]
      simp only [diff, diffVCore, changed_self, Bool.false_eq_true, if_false, ht,
        childrenOf]
      rw [h]
      rw [hloop]
      simp [hset]

/-- Witness for C3 at a concrete description and root. -/
theorem patch_idempotent_witness :
    (childNodesD (.delem "root" [] []
        [renderV (.elem "div" (some [("id", .str "x")]) [.text "hi"])])).get? 0
      = some (renderV (.elem "div" (some [("id", .str "x")]) [.text "hi"])) ∧
    diff (some (.delem "root" [] []
        [renderV (.elem "div" (some [("id", .str "x")]) [.text "hi"])]))
      (some (.elem "div" (some [("id", .str "x")]) [.text "hi"]))
      (some (.elem "div" (some [("id", .str "x")]) [.text "hi"])) 0
      = some (some (.delem "root" [] []
        [renderV (.elem "div" (some [("id", .str "x")]) [.text "hi"])]), []) :=
  ⟨rfl, patch_idempotent _ _ 0 rfl⟩

lemma len_le_of_get?_none {α : Type} :
    ∀ (l : List α) (i : Nat), l.get? i = none → l.length ≤ i := by
  intro l
  induction l with
  | nil => intro i _; simp
  | cons y ys ih =>
      intro i h
      cases i with
      | zero => simp [List.get?] at h
      | succ j => simp only [List.get?] at h; simpa using ih j h

lemma lt_of_get?_some {α : Type} :
    ∀ (l : List α) (i : Nat) (x : α), l.get? i = some x → i < l.length := by
  intro l
  induction l with
  | nil => intro i x h; simp [List.get?] at h
  | cons y ys ih =>
      intro i x h
      cases i with
      | zero => simp
      | succ j => simp only [List.get?] at h; simpa using ih j x h

lemma get?_set_self {α : Type} :
    ∀ (l : List α) (i : Nat) (x : α), i < l.length → (l.set i x).get? i = some x := by
  intro l
  induction l with
  | nil => intro i x h; simp at h
  | cons y ys ih =>
      intro i x h
      cases i with
      | zero => rfl
      | succ j => simpa [List.set, List.get?] using ih j x (by simpa using h)

lemma replaceChildAtD_len (c : DNode) (i : Nat) (d p' : DNode)
    (h : replaceChildAtD c i d = some p') :
    (childNodesD p').length = (childNodesD c).length := by
  cases c with
  | dtext s => simp [replaceChildAtD] at h
  | delem t a l cs =>
      simp only [replaceChildAtD] at h
      split at h
      · cases h; simp [childNodesD]
      · cases h

lemma appendChildD_len (c d c' : DNode) (h : appendChildD c d = some c') :
    (childNodesD c').length = (childNodesD c).length + 1 := by
  cases c with
  | dtext s => simp [appendChildD] at h
  | delem t a l cs => cases h; simp [childNodesD]

lemma setChildOpt_len (p : DNode) (i : Nat) (ch : Option DNode) :
    (childNodesD (setChildOpt p i ch)).length = (childNodesD p).length := by
  cases ch with
  | none => rfl
  | some c =>
      cases p with
      | dtext s => rfl
      | delem t a l cs => simp [setChildOpt, childNodesD]

lemma diffVCore_none_parent (o n : VNode) (i : Nat) (c' : Option DNode)
    (ops : List HostOp) (h : diffVCore none o n i = some (c', ops)) : c' = none := by
  cases n with
  | text s =>
      by_cases hch : changed o (.text s)
      · simp only [diffVCore, hch, if_true] at h
        simp at h
      · simp only [diffVCore, hch, if_false] at h
        injection h with h'
        injection h' with h1 h2
        exact h1.symm
  | num k =>
      by_cases hch : changed o (.num k)
      · simp only [diffVCore, hch, if_true] at h
        simp at h
      · simp only [diffVCore, hch, if_false] at h
        injection h with h'
        injection h' with h1 h2
        exact h1.symm
  | elem t a cs =>
      by_cases hch : changed o (.elem t a cs)
      · simp only [diffVCore, hch, if_true] at h
        simp at h
      · simp only [diffVCore, hch, if_false] at h
        by_cases ht : t = ""
        · rw [if_pos ht] at h
          injection h with h'
          injection h' with h1 h2
          exact h1.symm
        · rw [if_neg ht] at h
          by_cases hcs : cs.isEmpty
          · rw [if_pos hcs] at h
            injection h with h'
            injection h' with h1 h2
            exact h1.symm
          · rw [if_neg hcs] at h
            simp at h

lemma diffVCore_some_len (c : DNode) (o n : VNode) (i : Nat) (c' : Option DNode)
    (ops : List HostOp) (h : diffVCore (some c) o n i = some (c', ops)) :
    ∃ d, c' = some d ∧ (childNodesD d).length = (childNodesD c).length := by
  cases n with
  | text s =>
      by_cases hch : changed o (.text s)
      · simp only [diffVCore, hch, if_true] at h
        cases hrep : replaceChildAtD c i (renderV (.text s)) with
        | none => rw [hrep] at h; simp at h
        | some p' =>
            rw [hrep] at h
            injection h with h'
            injection h' with h1 h2
            exact ⟨p', h1.symm, replaceChildAtD_len c i _ p' hrep⟩
      · simp only [diffVCore, hch, if_false] at h
        injection h with h'
        injection h' with h1 h2
        exact ⟨c, h1.symm, rfl⟩
  | num k =>
      by_cases hch : changed o (.num k)
      · simp only [diffVCore, hch, if_true] at h
        cases hrep : replaceChildAtD c i (renderV (.num k)) with
        | none => rw [hrep] at h; simp at h
        | some p' =>
            rw [hrep] at h
            injection h with h'
            injection h' with h1 h2
            exact ⟨p', h1.symm, replaceChildAtD_len c i _ p' hrep⟩
      · simp only [diffVCore, hch, if_false] at h
        injection h with h'
        injection h' with h1 h2
        exact ⟨c, h1.symm, rfl⟩
  | elem t a cs =>
      by_cases hch : changed o (.elem t a cs)
      · simp only [diffVCore, hch, if_true] at h
        cases hrep : replaceChildAtD c i (renderV (.elem t a cs)) with
        | none => rw [hrep] at h; simp at h
        | some p' =>
            rw [hrep] at h
            injection h with h'
            injection h' with h1 h2
            exact ⟨p', h1.symm, replaceChildAtD_len c i _ p' hrep⟩
      · simp only [diffVCore, hch, if_false] at h
        by_cases ht : t = ""
        · rw [if_pos ht] at h
          injection h with h'
          injection h' with h1 h2
          exact ⟨c, h1.symm, rfl⟩
        · rw [if_neg ht] at h
          cases hloop : diffChildren ((childNodesD c).get? i) (childrenOf o) cs 0 with
          | none => rw [hloop] at h; simp at h
          | some pr =>
              obtain ⟨ch, ops2⟩ := pr
              rw [hloop] at h
              injection h with h'
              injection h' with h1 h2
              exact ⟨setChildOpt c i ch, h1.symm, setChildOpt_len c i ch⟩

lemma diffChildren_len :
    ∀ (newCs oldCs : List VNode) (i : Nat) (child child' : Option DNode)
      (ops : List HostOp),
      diffChildren child oldCs newCs i = some (child', ops) →
      child'.isSome = child.isSome ∧
      lenOpt child' = lenOpt child + ((i + newCs.length) - max i oldCs.length) := by
  intro newCs
  induction newCs with
  | nil =>
      intro oldCs i child child' ops h
      cases h
      have hmax := Nat.le_max_left i oldCs.length
      refine ⟨rfl, ?_⟩
      simp only [List.length_nil, Nat.add_zero]
      omega
  | cons n rest ih =>
      intro oldCs i child child' ops h
      cases hget : oldCs.get? i with
      | none =>
          have hlen : oldCs.length ≤ i := len_le_of_get?_none oldCs i hget
          have hm1 : max i oldCs.length = i := Nat.max_eq_left hlen
          have hm2 : max (i + 1) oldCs.length = i + 1 := Nat.max_eq_left (by omega)
          cases child with
          | none =>
              simp only [diffChildren, hget] at h
              exact Option.noConfusion h
          | some c =>
              cases happ : appendChildD c (renderV n) with
              | none =>
                  simp only [diffChildren, hget, happ] at h
                  exact Option.noConfusion h
              | some c2 =>
                  cases hrec : diffChildren (some c2) oldCs rest (i + 1) with
                  | none =>
                      simp only [diffChildren, hget, happ, hrec] at h
                      exact Option.noConfusion h
                  | some pr =>
                      obtain ⟨c3, ops3⟩ := pr
                      simp only [diffChildren, hget, happ, hrec] at h
                      injection h with h'
                      injection h' with hc' hops
                      obtain ⟨hsome, hlen3⟩ := ih oldCs (i + 1) (some c2) c3 ops3 hrec
                      have hal := appendChildD_len c (renderV n) c2 happ
                      subst hc'
                      refine ⟨hsome.trans rfl, ?_⟩
                      rw [hlen3, hm2, hm1]
                      simp only [lenOpt, hal, List.length_cons]
                      omega
      | some o =>
          have hlt : i < oldCs.length := lt_of_get?_some oldCs i o hget
          have hm1 : max i oldCs.length = oldCs.length := Nat.max_eq_right (by omega)
          cases hstep : diffVCore child o n i with
          | none =>
              simp only [diffChildren, hget, hstep] at h
              exact Option.noConfusion h
          | some pr =>
              obtain ⟨c1, ops1⟩ := pr
              cases hrec : diffChildren c1 oldCs rest (i + 1) with
              | none =>
                  simp only [diffChildren, hget, hstep, hrec] at h
                  exact Option.noConfusion h
              | some pr2 =>
                  obtain ⟨c2, ops2⟩ := pr2
                  simp only [diffChildren, hget, hstep, hrec] at h
                  injection h with h'
                  injection h' with hc' hops
                  subst hc'
                  obtain ⟨hsome, hlen2⟩ := ih oldCs (i + 1) c1 c2 ops2 hrec
                  cases child with
                  | none =>
                      have hc1 : c1 = none := diffVCore_none_parent o n i c1 ops1 hstep
                      subst hc1
                      refine ⟨hsome, ?_⟩
                      rw [hlen2, hm1]
                      simp only [lenOpt, List.length_cons]
                      rcases Nat.le_total (i + 1) oldCs.length with hle | hle
                      · rw [Nat.max_eq_right hle]
                        omega
                      · rw [Nat.max_eq_left hle]
                        omega
                  | some c =>
                      obtain ⟨d, hd, hdl⟩ := diffVCore_some_len c o n i c1 ops1 hstep
                      subst hd
                      refine ⟨hsome.trans rfl, ?_⟩
                      rw [hlen2, hm1]
                      simp only [lenOpt, hdl, List.length_cons]
                      rcases Nat.le_total (i + 1) oldCs.length with hle | hle
                      · rw [Nat.max_eq_right hle]
                        omega
                      · rw [Nat.max_eq_left hle]
                        omega

/-- C1 (amended): when `changed` is false and the new description is an
element with a truthy tag, `diff` recurses over positions of the NEW
children sequence only: positions past the length of the old sequence
append (growth), but excess old children past the length of the new one are
never visited, so the live child's child count becomes its old count
plus `newCount - oldCount` truncated at zero — it never shrinks. -/
theorem patch_recurses_over_new_children_only (p : DNode) (tOld tNew : String)
    (aOld aNew : Option AttrMap) (csOld csNew : List VNode) (idx : Nat)
    (res : Option DNode × List HostOp)
    (hch : changed (.elem tOld aOld csOld) (.elem tNew aNew csNew) = false)
    (htag : ¬ tNew = "")
    (hres : diff (some p) (some (.elem tOld aOld csOld))
      (some (.elem tNew aNew csNew)) idx = some res) :
    ∃ q, res.1 = some q ∧
      (childNodesD (childAtD q idx)).length =
        (childNodesD (childAtD p idx)).length + (csNew.length - csOld.length) := by
  have hch' : ¬ changed (.elem tOld aOld csOld) (.elem tNew aNew csNew) = true := by
    simp [hch]
  simp only [diff, diffVCore, hch', if_false] at hres
  rw [if_neg htag] at hres
  simp only [childrenOf] at hres
  cases hloop : diffChildren ((childNodesD p).get? idx) csOld csNew 0 with
  | none => rw [hloop] at hres; exact Option.noConfusion hres
  | some pr =>
      obtain ⟨ch, ops2⟩ := pr
      rw [hloop] at hres
      injection hres with h'
      subst h'
      obtain ⟨hsome, hlenf⟩ :=
        diffChildren_len csNew csOld 0 ((childNodesD p).get? idx) ch ops2 hloop
      refine ⟨setChildOpt p idx ch, rfl, ?_⟩
      cases hch0 : (childNodesD p).get? idx with
      | none =>
          rw [hch0] at hsome hlenf
          have hchn : ch = none := by
            cases ch with
            | none => rfl
            | some x => simp at hsome
          subst hchn
          simp only [lenOpt, Nat.zero_add, Nat.zero_max] at hlenf
          simp only [setChildOpt, childAtD, hch0]
          simp [← hlenf]
      | some c =>
          rw [hch0] at hsome hlenf
          have hex : ∃ d, ch = some d := by
            cases ch with
            | none => simp at hsome
            | some d => exact ⟨d, rfl⟩
          obtain ⟨d, rfl⟩ := hex
          cases p with
          | dtext s => simp [childNodesD, List.get?] at hch0
          | delem pt pa pl pcs =>
              simp only [childNodesD] at hch0
              have hlt : idx < pcs.length := lt_of_get?_some pcs idx c hch0
              simp only [setChildOpt, childAtD, childNodesD]
              rw [get?_set_self pcs idx d hlt, hch0]
              simp only [Option.getD_some]
              simp only [lenOpt, Nat.zero_add, Nat.zero_max] at hlenf
              exact hlenf

/-- C1 counterexample: with an unchanged element whose old description
has two children and whose new description has one, `diff` performs no
host mutation at all — the excess live child "b" is NOT removed (the op
log is empty and the live tree is returned unchanged, still holding two
children where the new description has one). -/
theorem patch_keeps_excess_old_children :
    changed (.elem "p" (some []) [.text "a", .text "b"])
        (.elem "p" (some []) [.text "a"]) = false ∧
    diff (some (.delem "div" [] [] [.delem "p" [] [] [.dtext "a", .dtext "b"]]))
        (some (.elem "p" (some []) [.text "a", .text "b"]))
        (some (.elem "p" (some []) [.text "a"])) 0
      = some (some (.delem "div" [] [] [.delem "p" [] [] [.dtext "a", .dtext "b"]]), []) ∧
    (childNodesD (childAtD
        (.delem "div" [] [] [.delem "p" [] [] [.dtext "a", .dtext "b"]]) 0)).length = 2 :=
  ⟨rfl, rfl, rfl⟩

/-- Witness for the amended C1 at a concrete input. -/
theorem patch_recurses_over_new_children_only_witness :
    changed (.elem "p" (some []) [.text "a", .text "b"])
        (.elem "p" (some []) [.text "a"]) = false ∧
    ¬ "p" = "" ∧
    ∃ q, (some (DNode.delem "div" [] [] [.delem "p" [] [] [.dtext "a", .dtext "b"]]),
        ([] : List HostOp)).1 = some q ∧
      (childNodesD (childAtD q 0)).length =
        (childNodesD (childAtD
          (.delem "div" [] [] [.delem "p" [] [] [.dtext "a", .dtext "b"]]) 0)).length +
          (([VNode.text "a"].length) - ([VNode.text "a", VNode.text "b"].length)) :=
  ⟨rfl, by decide,
    patch_recurses_over_new_children_only
      (.delem "div" [] [] [.delem "p" [] [] [.dtext "a", .dtext "b"]])
      "p" "p" (some []) (some []) [.text "a", .text "b"] [.text "a"] 0
      (some (.delem "div" [] [] [.delem "p" [] [] [.dtext "a", .dtext "b"]]), [])
      rfl (by decide) rfl⟩

lemma lookup_cons {V : Type} (k k1 : String) (v1 : V) (rest : List (String × V)) :
    List.lookup k ((k1, v1) :: rest) =
      if k = k1 then some v1 else List.lookup k rest := by
  by_cases h : k = k1
  · subst h; simp [List.lookup]
  · simp [List.lookup, beq_eq_false_iff_ne.mpr h, h]

lemma lookup_map_replace_ne {V : Type} (k' : String) (v : V) (k : String)
    (hne : k ≠ k') :
    ∀ m : List (String × V),
      (m.map (fun kv => if kv.1 == k' then (k', v) else kv)).lookup k = m.lookup k := by
  intro m
  induction m with
  | nil => rfl
  | cons kv rest ih =>
      obtain ⟨k1, v1⟩ := kv
      by_cases hk : k1 = k'
      · subst hk
        simp only [List.map_cons, beq_self_eq_true, if_true]
        rw [lookup_cons, lookup_cons, if_neg hne, if_neg hne]
        exact ih
      · simp only [List.map_cons, beq_eq_false_iff_ne.mpr hk, Bool.false_eq_true,
          if_false]
        rw [lookup_cons, lookup_cons]
        by_cases hkk : k = k1
        · simp [hkk]
        · rw [if_neg hkk, if_neg hkk]
          exact ih

lemma lookup_map_replace_self {V : Type} (k' : String) (v : V) :
    ∀ m : List (String × V), m.any (fun kv => kv.1 == k') = true →
      (m.map (fun kv => if kv.1 == k' then (k', v) else kv)).lookup k' = some v := by
  intro m
  induction m with
  | nil => intro h; simp at h
  | cons kv rest ih =>
      intro h
      obtain ⟨k1, v1⟩ := kv
      by_cases hk : k1 = k'
      · subst hk
        simp only [List.map_cons, beq_self_eq_true, if_true]
        rw [lookup_cons, if_pos rfl]
      · simp only [List.any_cons, beq_eq_false_iff_ne.mpr hk, Bool.false_or] at h
        simp only [List.map_cons, beq_eq_false_iff_ne.mpr hk, Bool.false_eq_true,
          if_false]
        rw [lookup_cons, if_neg (fun he => hk he.symm)]
        exact ih h

lemma lookup_append_opt {V : Type} (k : String) :
    ∀ a b : List (String × V), (a ++ b).lookup k = optOr (a.lookup k) (b.lookup k) := by
  intro a b
  induction a with
  | nil => simp [optOr, List.lookup]
  | cons kv rest ih =>
      obtain ⟨k1, v1⟩ := kv
      simp only [List.cons_append]
      rw [lookup_cons, lookup_cons]
      by_cases hkk : k = k1
      · simp [hkk, optOr]
      · rw [if_neg hkk, if_neg hkk]
        exact ih

lemma lookup_none_of_any_false {V : Type} (k : String) :
    ∀ m : List (String × V), m.any (fun kv => kv.1 == k) = false → m.lookup k = none := by
  intro m
  induction m with
  | nil => intro _; rfl
  | cons kv rest ih =>
      intro h
      obtain ⟨k1, v1⟩ := kv
      simp only [List.any_cons, Bool.or_eq_false_iff] at h
      rw [lookup_cons, if_neg (fun he => by simp [he.symm] at h)]
      exact ih h.2

lemma lookup_objInsert {V : Type} (m : List (String × V)) (k' : String) (v : V)
    (k : String) :
    (objInsert m k' v).lookup k = if k = k' then some v else m.lookup k := by
  by_cases hk : k = k'
  · subst hk
    rw [if_pos rfl]
    unfold objInsert
    cases hany : m.any (fun kv => kv.1 == k) with
    | true => simp only [if_true]; exact lookup_map_replace_self k v m hany
    | false =>
        simp only [Bool.false_eq_true, if_false]
        rw [lookup_append_opt, lookup_none_of_any_false k m hany]
        simp [optOr, lookup_cons]
  · rw [if_neg hk]
    unfold objInsert
    cases hany : m.any (fun kv => kv.1 == k') with
    | true => simp only [if_true]; exact lookup_map_replace_ne k' v k hk m
    | false =>
        simp only [Bool.false_eq_true, if_false]
        rw [lookup_append_opt]
        have hsing : ([(k', v)] : List (String × V)).lookup k = none := by
          rw [lookup_cons, if_neg hk]; rfl
        rw [hsing]
        cases m.lookup k <;> rfl

lemma lookup_foldl_insert {V : Type} :
    ∀ (es acc : List (String × V)) (k : String),
      ((es.foldl (fun m kv => objInsert m kv.1 kv.2) acc).lookup k) =
        optOr (lastLookup es k) (acc.lookup k) := by
  intro es
  induction es with
  | nil =>
      intro acc k
      simp only [List.foldl_nil, lastLookup, optOr]
  | cons kv rest ih =>
      intro acc k
      obtain ⟨k1, v1⟩ := kv
      simp only [List.foldl_cons]
      rw [ih (objInsert acc k1 v1) k, lookup_objInsert]
      simp only [lastLookup]
      cases hl : lastLookup rest k with
      | some w => rfl
      | none =>
          by_cases hkk : k = k1
          · simp [hkk, optOr]
          · simp [hkk, optOr]

lemma lastLookup_append {V : Type} :
    ∀ (a b : List (String × V)) (k : String),
      lastLookup (a ++ b) k = optOr (lastLookup b k) (lastLookup a k) := by
  intro a b k
  induction a with
  | nil =>
      cases hb : lastLookup b k <;> simp [lastLookup, optOr, hb]
  | cons kv rest ih =>
      cases hb : lastLookup b k with
      | some w =>
          rw [hb] at ih
          simp [lastLookup, ih, optOr]
      | none =>
          rw [hb] at ih
          cases hr : lastLookup rest k with
          | some w =>
              rw [hr] at ih
              simp [lastLookup, ih, optOr]
              rw [hr]
          | none =>
              rw [hr] at ih
              simp [lastLookup, ih, optOr]
              rw [hr]

lemma mem_keys_of_lookup_some {V : Type} (k : String) (v : V) :
    ∀ es : List (String × V), es.lookup k = some v → k ∈ es.map Prod.fst := by
  intro es
  induction es with
  | nil => intro h; simp [List.lookup] at h
  | cons kv rest ih =>
      obtain ⟨k1, v1⟩ := kv
      intro h
      rw [lookup_cons] at h
      by_cases hkk : k = k1
      · simp [hkk]
      · rw [if_neg hkk] at h
        simp only [List.map_cons, List.mem_cons]
        exact Or.inr (ih h)

lemma lastLookup_eq_lookup_of_nodup {V : Type} (k : String) :
    ∀ es : List (String × V), (es.map Prod.fst).Nodup → lastLookup es k = es.lookup k := by
  intro es
  induction es with
  | nil => intro _; rfl
  | cons kv rest ih =>
      intro hnd
      obtain ⟨k1, v1⟩ := kv
      simp only [List.map_cons, List.nodup_cons] at hnd
      obtain ⟨hk1, hrest⟩ := hnd
      simp only [lastLookup]
      rw [lookup_cons, ih hrest]
      cases hl : rest.lookup k with
      | some w =>
          have hmem : k ∈ rest.map Prod.fst := mem_keys_of_lookup_some k w rest hl
          have hkk : ¬ k = k1 := fun he => hk1 (he ▸ hmem)
          simp [hkk]
      | none => rfl

lemma lookup_jsSpread {V : Type} (a b : List (String × V))
    (ha : (a.map Prod.fst).Nodup) (hb : (b.map Prod.fst).Nodup) (k : String) :
    (jsSpread a b).lookup k = optOr (b.lookup k) (a.lookup k) := by
  unfold jsSpread
  rw [lookup_foldl_insert, lastLookup_append,
    lastLookup_eq_lookup_of_nodup k a ha, lastLookup_eq_lookup_of_nodup k b hb]
  cases b.lookup k with
  | some w => rfl
  | none => cases a.lookup k <;> rfl

/-- C5: a successful `setState(p)` leaves the mount holding the shallow
merge of `p` into the previous state (keys of `p` win, all other keys
keep their old value), the freshly produced description is retained as
the new baseline on both the diffing and the non-diffing path, and the
stored live root is already the patched one — the view re-invocation and
the host patch (or full first-child replacement) complete within the
call. -/
theorem setState_shallow_merge_and_sync_patch {V : Type} (ud : Bool)
    (view : List (String × V) → VNode) (m : MountRec V) (p : List (String × V))
    (m' : MountRec V)
    (ha : (m.state.map Prod.fst).Nodup) (hp : (p.map Prod.fst).Nodup)
    (h : setState ud view m p = some m') :
    (∀ k, m'.state.lookup k = optOr (p.lookup k) (m.state.lookup k)) ∧
    m'.vDom = view (jsSpread m.state p) ∧
    (ud = true → ∃ ops, diff (some m.root) (some m.vDom) (some m'.vDom) 0 =
      some (some m'.root, ops)) ∧
    (ud = false → replaceChildAtD m.root 0 (renderV m'.vDom) = some m'.root) := by
  cases ud with
  | true =>
      simp only [setState, if_true] at h
      cases hd : diff (some m.root) (some m.vDom) (some (view (jsSpread m.state p))) 0 with
      | none => rw [hd] at h; exact Option.noConfusion h
      | some pr =>
          obtain ⟨r, ops⟩ := pr
          cases r with
          | none => rw [hd] at h; exact Option.noConfusion h
          | some r' =>
              rw [hd] at h
              injection h with h'
              subst h'
              refine ⟨fun k => lookup_jsSpread m.state p ha hp k, rfl, ?_, ?_⟩
              · intro _
                exact ⟨ops, hd⟩
              · intro hfalse
                exact absurd hfalse (by simp)
  | false =>
      simp only [setState, Bool.false_eq_true, if_false] at h
      cases hrep : replaceChildAtD m.root 0 (renderV (view (jsSpread m.state p))) with
      | none => rw [hrep] at h; exact Option.noConfusion h
      | some r' =>
          rw [hrep] at h
          injection h with h'
          subst h'
          refine ⟨fun k => lookup_jsSpread m.state p ha hp k, rfl, ?_, ?_⟩
          · intro htrue
            exact absurd htrue (by simp)
          · intro _
            exact hrep

/-- Witness for C5 at a concrete mount: state {count: 0}, update
{count: 1}, constant text view, diffing enabled. -/
theorem setState_shallow_merge_and_sync_patch_witness :
    ((((⟨[("count", (0 : Nat))], .text "x",
        .delem "div" [] [] [.dtext "x"]⟩ : MountRec Nat).state.map Prod.fst).Nodup) ∧
      ((([("count", (1 : Nat))] : List (String × Nat)).map Prod.fst).Nodup) ∧
      setState true (fun _ => VNode.text "x")
        (⟨[("count", 0)], .text "x", .delem "div" [] [] [.dtext "x"]⟩ : MountRec Nat)
        [("count", 1)]
        = some ⟨[("count", 1)], .text "x", .delem "div" [] [] [.dtext "x"]⟩) ∧
    ((∀ k, ((⟨[("count", (1 : Nat))], .text "x",
          .delem "div" [] [] [.dtext "x"]⟩ : MountRec Nat).state.lookup k) =
        optOr (([("count", (1 : Nat))] : List (String × Nat)).lookup k)
          ((⟨[("count", (0 : Nat))], .text "x",
            .delem "div" [] [] [.dtext "x"]⟩ : MountRec Nat).state.lookup k)) ∧
      (⟨[("count", (1 : Nat))], .text "x",
          .delem "div" [] [] [.dtext "x"]⟩ : MountRec Nat).vDom =
        (fun (_ : List (String × Nat)) => VNode.text "x")
          (jsSpread [("count", 0)] [("count", 1)]) ∧
      (true = true → ∃ ops, diff (some (DNode.delem "div" [] [] [.dtext "x"]))
        (some (VNode.text "x")) (some (VNode.text "x")) 0
          = some (some (DNode.delem "div" [] [] [.dtext "x"]), ops)) ∧
      (true = false → replaceChildAtD (DNode.delem "div" [] [] [.dtext "x"]) 0
        (renderV (VNode.text "x")) = some (DNode.delem "div" [] [] [.dtext "x"]))) :=
  ⟨⟨by simp, by simp, rfl⟩,
    setState_shallow_merge_and_sync_patch true (fun _ => VNode.text "x")
      ⟨[("count", 0)], .text "x", .delem "div" [] [] [.dtext "x"]⟩
      [("count", 1)]
      ⟨[("count", 1)], .text "x", .delem "div" [] [] [.dtext "x"]⟩
      (by simp) (by simp) rfl⟩

lemma jsIndexOfAux_not_mem {V : Type} [DecidableEq V] (x : V) :
    ∀ (l : List V) (i : Int), x ∉ l → jsIndexOfAux x l i = -1 := by
  intro l
  induction l with
  | nil => intro i _; rfl
  | cons y ys ih =>
      intro i hx
      have hy : ¬ y = x := fun he => hx (by simp [he])
      have hys : x ∉ ys := fun hm => hx (List.mem_cons_of_mem y hm)
      simp only [jsIndexOfAux, hy, if_false]
      exact ih (i + 1) hys

/-- C9: `setValue` with a strictly-equal value is a complete no-op — the
state is untouched, `getValue` is unchanged and no listener fires; with
any other value every registered listener is notified, in order, with
the pair (new value, old value), and the stored value becomes the new
one. -/
theorem setValue_equality_guard {V : Type} [DecidableEq V] (s : ObsState V) (v : V) :
    (v = s.value →
      setValue s v = (s, []) ∧ getValue (setValue s v).1 = getValue s) ∧
    (v ≠ s.value →
      setValue s v = (⟨v, s.listeners⟩, s.listeners.map (fun l => (l, v, s.value)))) := by
  constructor
  · intro hv
    subst hv
    constructor
    · simp [setValue]
    · simp [setValue, getValue]
  · intro hv
    have : ¬ s.value = v := fun he => hv he.symm
    simp [setValue, this]

/-- Witness for C9 at a concrete observable: an equal value is a no-op,
a different value notifies the listener with (new, old). -/
theorem setValue_equality_guard_witness :
    (setValue (ObsState.mk (0 : Nat) [5]) 0 = (ObsState.mk 0 [5], []) ∧
      getValue (setValue (ObsState.mk (0 : Nat) [5]) 0).1 =
        getValue (ObsState.mk (0 : Nat) [5])) ∧
    setValue (ObsState.mk (0 : Nat) [5]) 1 = (ObsState.mk 1 [5], [(5, 1, 0)]) :=
  ⟨(setValue_equality_guard (ObsState.mk 0 [5]) 0).1 rfl,
    (setValue_equality_guard (ObsState.mk 0 [5]) 1).2 (by decide)⟩

/-- C10: deleting an item that is not in the list leaves the contents
and the count unchanged, yet still notifies every registered deletion
listener with the item. -/
theorem del_notifies_even_without_removal {V : Type} [DecidableEq V]
    (s : ObsListState V) (x : V) (hx : x ∉ s.items) :
    del s x = (s, s.delListeners.map (fun l => (l, x))) ∧
    count (del s x).1 = count s := by
  have hidx : jsIndexOf s.items x = -1 := jsIndexOfAux_not_mem x s.items 0 hx
  constructor
  · simp [del, hidx]
  · simp [del, hidx, count]

/-- Witness for C10 at a concrete list and absent item. -/
theorem del_notifies_even_without_removal_witness :
    ((3 : Nat) ∉ (ObsListState.mk [1, 2] [] [7]).items) ∧
    del (ObsListState.mk [1, 2] [] [7]) 3 =
      (ObsListState.mk [1, 2] [] [7], [(7, 3)]) ∧
    count (del (ObsListState.mk [1, 2] [] [7]) 3).1 =
      count (ObsListState.mk ([1, 2] : List Nat) [] [7]) :=
  ⟨by decide,
    (del_notifies_even_without_removal (ObsListState.mk [1, 2] [] [7]) 3 (by decide)).1,
    (del_notifies_even_without_removal (ObsListState.mk [1, 2] [] [7]) 3 (by decide)).2⟩
